import Mathlib

/-
Verification of the backfill/aggregation engine of nightscout-dash
(src/nightscout_dash/update_history.py).

The embedding models:
  - calendar dates as civil (year, month, day) triples, bounded like the
    Python datetime.date type (years 1 to 9999), with one-day successor
    and predecessor (timedelta arithmetic) as partial operations;
  - the running_averages SQLite table as a list of rows keyed by
    (date, minute_of_day), where INSERT OR REPLACE is remove-key-then-cons
    and INSERT OR IGNORE is insert-if-key-absent;
  - the per-minute reducer of SQLiteArchiver.insert_minute_averages,
    including the skipping of entries that lack the sgv or date field,
    the local-timezone minute bucketing (a fixed UTC offset tz, in
    minutes), and the round-half-to-even rounding used by Python round;
  - the catch-up loop of main as a fuel-indexed iteration of a step
    function driven by per-iteration oracles giving the fetch outcome and
    whether the SQLite transactions succeed (a failing transaction is
    caught, rolled back and logged by the source, leaving the table
    unchanged).

Numbers are exact: Python computes the mean with float division before
rounding, which coincides with exact rational rounding for all magnitudes
the program encounters.
-/

set_option autoImplicit false

namespace NSDash

/-- Calendar date, as in the Python datetime.date type. -/
structure Date where
  year : Nat
  month : Nat
  day : Nat
deriving DecidableEq, Repr

/-- Gregorian leap-year test. -/
def isLeap (y : Nat) : Bool :=
  (y % 4 == 0 && y % 100 != 0) || y % 400 == 0

/-- Number of days in a month of a given year. -/
def daysInMonth (y m : Nat) : Nat :=
  if m = 2 then (if isLeap y then 29 else 28)
  else if m = 4 ∨ m = 6 ∨ m = 9 ∨ m = 11 then 30
  else 31

/-- A date the Python datetime.date type can represent. -/
def Date.valid (d : Date) : Bool :=
  decide (1 ≤ d.year ∧ d.year ≤ 9999 ∧ 1 ≤ d.month ∧ d.month ≤ 12 ∧
          1 ≤ d.day ∧ d.day ≤ daysInMonth d.year d.month)

/-- Date comparison, chronological: the order Python defines on dates. -/
def dateLe (a b : Date) : Bool :=
  decide (a.year < b.year ∨ (a.year = b.year ∧
    (a.month < b.month ∨ (a.month = b.month ∧ a.day ≤ b.day))))

/-- Strict date comparison. -/
def dateLt (a b : Date) : Bool :=
  decide (a.year < b.year ∨ (a.year = b.year ∧
    (a.month < b.month ∨ (a.month = b.month ∧ a.day < b.day))))

/-- The larger of two dates. -/
def dateMax2 (a b : Date) : Date :=
  if dateLt a b then b else a

/-- The next calendar day (date + timedelta(days=1)); none when the result
would exceed the year 9999 bound, where Python raises OverflowError. -/
def Date.succ? (d : Date) : Option Date :=
  if d.day < daysInMonth d.year d.month then some ⟨d.year, d.month, d.day + 1⟩
  else if d.month < 12 then some ⟨d.year, d.month + 1, 1⟩
  else if d.year < 9999 then some ⟨d.year + 1, 1, 1⟩
  else none

/-- The previous calendar day (date - timedelta(days=1)); none when the
result would precede year 1, where Python raises OverflowError. -/
def Date.pred? (d : Date) : Option Date :=
  if 1 < d.day then some ⟨d.year, d.month, d.day - 1⟩
  else if 1 < d.month then some ⟨d.year, d.month - 1, daysInMonth d.year (d.month - 1)⟩
  else if 1 < d.year then some ⟨d.year - 1, 12, 31⟩
  else none

/-- Date minus n days (date - timedelta(days=n)). -/
def subDays? (d : Date) : Nat → Option Date
  | 0 => some d
  | n + 1 => (subDays? d n).bind Date.pred?

/-! Raw entries and the minute reducer of SQLiteArchiver.insert_minute_averages. -/

/-- A raw JSON entry from the Nightscout entries endpoint. Only the date
field (epoch milliseconds) and the sgv field are read; either may be
absent, in which case entry.get returns None. -/
structure Entry where
  date : Option Int
  sgv : Option Int
deriving DecidableEq, Repr

/-- Minute of the local day of an epoch-millisecond timestamp, as computed
by datetime.datetime.fromtimestamp(timestamp_ms / 1000) followed by
hour * 60 + minute. The local timezone of the machine is modelled as a
fixed offset tz in minutes from UTC. -/
def minuteOfDay (tz : Int) (ms : Int) : Nat :=
  ((ms.fdiv 60000 + tz) % 1440).toNat

/-- Adding one sample to the minute_data accumulator: an association list
from minute of day to (sum, count), kept in first-insertion order exactly
as a Python defaultdict iterates. -/
def addSample (m : Nat) (v : Int) : List (Nat × Int × Nat) → List (Nat × Int × Nat)
  | [] => [(m, v, 1)]
  | (m', sm, c) :: rest =>
    if m' = m then (m', sm + v, c + 1) :: rest else (m', sm, c) :: addSample m v rest

/-- One iteration of the entries loop: entries with sgv or date missing are
skipped and contribute nothing. -/
def collectEntry (tz : Int) (acc : List (Nat × Int × Nat)) (e : Entry) :
    List (Nat × Int × Nat) :=
  match e.date, e.sgv with
  | some ms, some v => addSample (minuteOfDay tz ms) v acc
  | _, _ => acc

/-- The minute_data accumulation loop of insert_minute_averages. -/
def collectMinutes (tz : Int) (entries : List Entry) : List (Nat × Int × Nat) :=
  entries.foldl (collectEntry tz) []

/-- Round half to even of the exact ratio sm / c, which is what the Python
round builtin computes for the mean; meaningful for c > 0. -/
def pyRound (sm : Int) (c : Nat) : Int :=
  let q := sm.fdiv c
  let r := sm - q * c
  if 2 * r < c then q
  else if 2 * r > c then q + 1
  else if q % 2 = 0 then q else q + 1

/-- The data_to_insert list: one (minute_of_day, avg_sgv) pair per distinct
minute, in accumulator order. -/
def reduceRows (tz : Int) (entries : List Entry) : List (Nat × Int) :=
  (collectMinutes tz entries).map (fun p => (p.1, pyRound p.2.1 p.2.2))

/-! The running_averages table and the archiver operations. -/

/-- One row of the running_averages table. -/
structure Row where
  date : Date
  minuteOfDay : Nat
  avgSgv : Int
deriving DecidableEq, Repr

/-- The running_averages table: rows keyed by (date_str, minute_of_day).
List order does not affect lookups; operations keep the most recently
written row first. -/
abbrev Store := List Row

/-- Lookup of the avg_sgv stored under a (date_str, minute_of_day) key. -/
def rowLookup (s : Store) (d : Date) (m : Nat) : Option Int :=
  (s.find? (fun r => decide (r.date = d ∧ r.minuteOfDay = m))).map (fun r => r.avgSgv)

/-- Whether a row with the given date exists, at any minute. -/
def hasRowD (s : Store) (d : Date) : Bool :=
  s.any (fun r => decide (r.date = d))

/-- Whether every date stored in the table is a representable date. -/
def allValid (s : Store) : Bool :=
  s.all (fun r => r.date.valid)

/-- Helper for the maximum date: fold of the two-date maximum, starting
from an optional accumulator. -/
def latestFrom (acc : Option Date) (s : Store) : Option Date :=
  s.foldl
    (fun a r => some (match a with
      | none => r.date
      | some w => dateMax2 w r.date)) acc

/-- SQLiteArchiver.get_latest_date: SELECT MAX(date_str), none when the
table is empty. The SQL MAX is a byte-wise maximum over the encoded
YYYY-MM-DD strings; the theorem for claim C9 proves that this coincides
with the chronological maximum used here. -/
def get_latest_date (s : Store) : Option Date :=
  latestFrom none s

/-- SQLiteArchiver.mark_day_as_checked: INSERT OR IGNORE of the placeholder
row (date_str, 0, 0). The ok flag tells whether the SQLite transaction
succeeds; on failure the source catches the error, logs it and rolls
back, leaving the table unchanged. -/
def mark_day_as_checked (ok : Bool) (s : Store) (d : Date) : Store :=
  if ok then
    if rowLookup s d 0 = none then ⟨d, 0, 0⟩ :: s else s
  else s

/-- INSERT OR REPLACE of a single row: any existing row with the same
(date_str, minute_of_day) key is removed and the new row inserted. -/
def upsertOne (s : Store) (d : Date) (m : Nat) (v : Int) : Store :=
  ⟨d, m, v⟩ :: s.filter (fun r => !decide (r.date = d ∧ r.minuteOfDay = m))

/-- The executemany INSERT OR REPLACE over a data_to_insert list, in list
order. -/
def upsertRows (s : Store) (d : Date) (rows : List (Nat × Int)) : Store :=
  rows.foldl (fun t p => upsertOne t d p.1 p.2) s

/-- SQLiteArchiver.insert_minute_averages: reduce the entries of the day to
per-minute averages and write them in one transaction, returning the
number of rows written. With no valid entries it instead marks the day as
checked and returns 0. A failed write transaction (writeOk false) is
caught, rolled back and logged, and the function returns 0. -/
def insert_minute_averages (tz : Int) (markOk writeOk : Bool) (s : Store)
    (d : Date) (entries : List Entry) : Store × Nat :=
  if collectMinutes tz entries = [] then (mark_day_as_checked markOk s d, 0)
  else
    let rows := reduceRows tz entries
    if writeOk then (upsertRows s d rows, rows.length) else (s, 0)

/-! The catch-up loop of main. -/

/-- Configuration of one run of main: the current date when the run starts
(the source re-reads the clock each iteration; within one run it is
modelled as fixed), the --initial-days-back flag, and the machine
timezone offset in minutes. -/
structure Config where
  today : Date
  initialDaysBack : Nat
  tz : Int

/-- Result of one fetch of the entries endpoint: the decoded JSON list, or
a requests.RequestException (network error, timeout, non-success status),
which the loop treats as fatal. -/
inductive FetchResult
  | success (entries : List Entry)
  | failure
deriving DecidableEq, Repr

/-- Environment behavior of one loop iteration: what the fetch returns and
whether each of the two possible SQLite write transactions succeeds. -/
structure IterOracle where
  fetch : FetchResult
  writeOk : Bool
  markOk : Bool

/-- What one iteration of the while loop of main did. -/
inductive StepResult
  | processed (day : Date) (s : Store)
  | caughtUp (s : Store)
  | fetchFailed (day : Date) (s : Store)
  | overflow (s : Store)
deriving DecidableEq, Repr

/-- The day the loop fetches next: watermark + 1 day when the table is
nonempty, today - initial_days_back when it is empty (lines 190 to 199 of
update_history.py). -/
def nextDateToFetch (cfg : Config) (s : Store) : Option Date :=
  match get_latest_date s with
  | some w => w.succ?
  | none => subDays? cfg.today cfg.initialDaysBack

/-- One iteration of the while loop of main (lines 185 to 241): compute
yesterday and the next day to fetch, stop when caught up, otherwise fetch
the day and archive its entries, stopping on a fetch failure. A none from
the date arithmetic is an uncaught OverflowError crashing the script. -/
def step (cfg : Config) (orc : IterOracle) (s : Store) : StepResult :=
  match cfg.today.pred? with
  | none => .overflow s
  | some lastFull =>
    match nextDateToFetch cfg s with
    | none => .overflow s
    | some nd =>
      if dateLe nd lastFull then
        match orc.fetch with
        | .failure => .fetchFailed nd s
        | .success entries =>
          if entries = [] then .processed nd (mark_day_as_checked orc.markOk s nd)
          else .processed nd (insert_minute_averages cfg.tz orc.markOk orc.writeOk s nd entries).1
      else .caughtUp s

/-- How a run of main ended. -/
inductive RunOutcome
  | finished
  | fetchError
  | crashed
  | fuelOut
deriving DecidableEq, Repr

/-- The while loop of main, driven by per-iteration oracles and bounded by
fuel. The source loop is unbounded; theorems about a run quantify over or
supply enough fuel. -/
def run (cfg : Config) (orcs : Nat → IterOracle) : Nat → Store → Nat → Store × RunOutcome
  | 0, s, _ => (s, .fuelOut)
  | fuel + 1, s, i =>
    match step cfg (orcs i) s with
    | .processed _ s' => run cfg orcs fuel s' (i + 1)
    | .caughtUp s' => (s', .finished)
    | .fetchFailed _ s' => (s', .fetchError)
    | .overflow s' => (s', .crashed)

/-! Reducer behavior as described by the specification, for the refinement
claim C6. -/

/-- Modelled from the spec (4.2 step 1 and 2): the valid samples as
(minuteOfDay, value) pairs, in entry order; samples missing a value or a
timestamp are discarded. -/
def specValidSamples (tz : Int) (entries : List Entry) : List (Nat × Int) :=
  entries.filterMap (fun e =>
    match e.date, e.sgv with
    | some ms, some v => some (minuteOfDay tz ms, v)
    | _, _ => none)

/-- Modelled from the spec (4.2 step 3 and 4): group the valid samples by
minute of day and output, per distinct minute present, the rounded
arithmetic mean of the group values. -/
def specReduce (tz : Int) (entries : List Entry) (m : Nat) : Option Int :=
  let grp := (specValidSamples tz entries).filter (fun p => decide (p.1 = m))
  if grp = [] then none
  else some (pyRound (grp.foldl (fun a p => a + p.2) 0) grp.length)

/-- Lookup of a minute in a reduced (minute, average) row list. -/
def minuteLookup (rows : List (Nat × Int)) (m : Nat) : Option Int :=
  (rows.find? (fun p => decide (p.1 = m))).map (fun p => p.2)


/-! Auxiliary definitions used by the theorems. -/

/-- Whether a minute key occurs in a data_to_insert list. -/
def keyMem (rows : List (Nat × Int)) (m : Nat) : Bool :=
  rows.any (fun p => decide (p.1 = m))

/-- The rows of a store that survive an upsert of the given keys: every row
whose (date, minute) key is written by the upsert is dropped. -/
def stripDay (d : Date) (rows : List (Nat × Int)) (s : Store) : Store :=
  s.filter (fun r => !decide (r.date = d ∧ keyMem rows r.minuteOfDay = true))

/-- Lookup of a minute in the (sum, count) accumulator. -/
def accLookup (acc : List (Nat × Int × Nat)) (m : Nat) : Option (Int × Nat) :=
  (acc.find? (fun p => decide (p.1 = m))).map (fun p => p.2)

/-- Sum and size of the group of valid samples falling in a given minute. -/
def sumCount (tz : Int) (entries : List Entry) (m : Nat) : Int × Nat :=
  let grp := (specValidSamples tz entries).filter (fun p => decide (p.1 = m))
  (grp.foldl (fun a p => a + p.2) 0, grp.length)

/-- Combining an accumulator cell with the contribution of further entries. -/
def combineCell (cell : Option (Int × Nat)) (p : Int × Nat) : Option (Int × Nat) :=
  match cell with
  | none => if p.2 = 0 then none else some p
  | some q => some (q.1 + p.1, q.2 + p.2)

/-- The no-gaps property of a store: between any two dates that have rows,
every representable date in between also has a row. -/
def IntervalStore (s : Store) : Prop :=
  ∀ d1 d2 e : Date, e.valid = true → hasRowD s d1 = true → hasRowD s d2 = true →
    dateLe d1 e = true → dateLe e d2 = true → hasRowD s e = true

/-! Byte-string encoding of dates, for the MAX(date_str) claim C9. -/

/-- Decimal digit bytes of a number below 100, zero padded: the %m and %d
fields of strftime. -/
def pad2 (n : Nat) : List Nat :=
  [48 + n / 10, 48 + n % 10]

/-- Decimal digit bytes of a number below 10000, zero padded: the %Y field
of strftime. Platform strftime implementations differ on padding for
years below 1000 (some pad to four digits, some do not); the model uses
the zero padded ISO form throughout. -/
def pad4 (n : Nat) : List Nat :=
  [48 + n / 1000, 48 + n % 1000 / 100, 48 + n % 100 / 10, 48 + n % 10]

/-- strftime %Y-%m-%d: the byte string stored in the date_str column (45 is
the hyphen byte). -/
def dateStr (d : Date) : List Nat :=
  pad4 d.year ++ [45] ++ pad2 d.month ++ [45] ++ pad2 d.day

/-- Byte-wise strict comparison (memcmp order): the BINARY collation SQLite
applies to TEXT values. -/
def strLtB : List Nat → List Nat → Bool
  | [], [] => false
  | [], _ :: _ => true
  | _ :: _, [] => false
  | a :: as, b :: bs => decide (a < b) || (decide (a = b) && strLtB as bs)

/-- The larger of two byte strings. -/
def strMax2 (x y : List Nat) : List Nat :=
  if strLtB x y then y else x

/-- SQL MAX over a column of byte strings. -/
def sqlMaxStr (l : List (List Nat)) : Option (List Nat) :=
  l.foldl
    (fun a x => some (match a with
      | none => x
      | some y => strMax2 y x)) none

/-! Date arithmetic and order lemmas. -/

theorem daysInMonth_pos (y m : Nat) : 1 ≤ daysInMonth y m := by
  unfold daysInMonth
  split_ifs <;> omega

theorem daysInMonth_le_31 (y m : Nat) : daysInMonth y m ≤ 31 := by
  unfold daysInMonth
  split_ifs <;> omega

theorem daysInMonth_december (y : Nat) : daysInMonth y 12 = 31 := by
  simp [daysInMonth]

theorem dateLe_refl (a : Date) : dateLe a a = true := by
  simp [dateLe]

theorem dateLe_trans {a b c : Date} (h1 : dateLe a b = true) (h2 : dateLe b c = true) :
    dateLe a c = true := by
  simp only [dateLe, decide_eq_true_eq] at *
  omega

theorem dateLe_antisymm {a b : Date} (h1 : dateLe a b = true) (h2 : dateLe b a = true) :
    a = b := by
  simp only [dateLe, decide_eq_true_eq] at *
  cases a; cases b
  simp_all only [Date.mk.injEq]
  omega

theorem dateLe_total (a b : Date) : dateLe a b = true ∨ dateLe b a = true := by
  simp only [dateLe, decide_eq_true_eq]
  omega

theorem dateLt_iff_not_le {a b : Date} : dateLt a b = true ↔ ¬ dateLe b a = true := by
  simp only [dateLt, dateLe, decide_eq_true_eq]
  omega

theorem dateLt_le {a b : Date} (h : dateLt a b = true) : dateLe a b = true := by
  simp only [dateLt, dateLe, decide_eq_true_eq] at *
  omega

theorem dateLe_lt_trans {a b c : Date} (h1 : dateLe a b = true) (h2 : dateLt b c = true) :
    dateLt a c = true := by
  simp only [dateLt, dateLe, decide_eq_true_eq] at *
  omega

theorem dateLt_le_trans {a b c : Date} (h1 : dateLt a b = true) (h2 : dateLe b c = true) :
    dateLt a c = true := by
  simp only [dateLt, dateLe, decide_eq_true_eq] at *
  omega

theorem dateLt_irrefl (a : Date) : dateLt a a = false := by
  simp [dateLt]

theorem succ?_gt {a b : Date} (h : a.succ? = some b) : dateLt a b = true := by
  obtain ⟨y, m, d⟩ := a
  unfold Date.succ? at h
  dsimp only at h
  split_ifs at h <;> simp only [Option.some.injEq] at h <;> subst h <;>
    simp only [dateLt, decide_eq_true_eq, true_and, and_true] <;> omega

theorem succ?_valid {a b : Date} (ha : a.valid = true) (h : a.succ? = some b) :
    b.valid = true := by
  obtain ⟨y, m, d⟩ := a
  unfold Date.succ? at h
  simp only [Date.valid, decide_eq_true_eq] at ha ⊢
  dsimp only at h ha
  have p1 := daysInMonth_pos y (m + 1)
  have p2 := daysInMonth_pos (y + 1) 1
  split_ifs at h with h1 h2 h3 <;> simp only [Option.some.injEq] at h <;> subst h <;>
    dsimp only <;> omega

theorem pred?_valid {a b : Date} (ha : a.valid = true) (h : a.pred? = some b) :
    b.valid = true := by
  obtain ⟨y, m, d⟩ := a
  unfold Date.pred? at h
  simp only [Date.valid, decide_eq_true_eq] at ha ⊢
  dsimp only at h ha
  have p1 := daysInMonth_pos y (m - 1)
  have p2 := daysInMonth_december (y - 1)
  split_ifs at h with h1 h2 h3 <;> simp only [Option.some.injEq] at h <;> subst h <;>
    dsimp only <;> omega

theorem pred?_succ? {a b : Date} (ha : a.valid = true) (h : a.pred? = some b) :
    b.succ? = some a := by
  obtain ⟨y, m, d⟩ := a
  unfold Date.pred? at h
  simp only [Date.valid, decide_eq_true_eq] at ha
  dsimp only at h ha
  have p2 := daysInMonth_december (y - 1)
  split_ifs at h with h1 h2 h3 <;> simp only [Option.some.injEq] at h <;> subst h <;>
    unfold Date.succ? <;> dsimp only <;>
    split_ifs with c1 c2 c3 <;>
    first
    | (simp only [Option.some.injEq, Date.mk.injEq, eq_self_iff_true, true_and,
        and_true] <;> omega)
    | (exfalso; omega)

theorem lt_succ?_le {e w w' : Date} (he : e.valid = true) (hw : w.valid = true)
    (h : w.succ? = some w') (hlt : dateLt e w' = true) : dateLe e w = true := by
  obtain ⟨ye, me, de⟩ := e
  obtain ⟨yw, mw, dw⟩ := w
  unfold Date.succ? at h
  simp only [Date.valid, decide_eq_true_eq] at he hw
  dsimp only at h he hw
  obtain ⟨_, _, _, _, _, hedim⟩ := he
  obtain ⟨_, _, _, _, _, hwdim⟩ := hw
  split_ifs at h with h1 h2 h3 <;> simp only [Option.some.injEq] at h
  · subst h
    simp only [dateLt, dateLe, decide_eq_true_eq] at hlt ⊢
    try dsimp only at hlt ⊢
    omega
  · -- w is the last day of a month other than December
    subst h
    simp only [dateLt, dateLe, decide_eq_true_eq] at hlt ⊢
    try dsimp only at hlt ⊢
    rcases hlt with h' | ⟨hy, h'⟩
    · omega
    rcases h' with h' | ⟨hm, h'⟩
    · rcases Nat.lt_or_ge me mw with h'' | h''
      · omega
      · have hme : me = mw := by omega
        subst hme hy
        omega
    · omega
  · -- w is December 31st
    subst h
    simp only [dateLt, dateLe, decide_eq_true_eq] at hlt ⊢
    try dsimp only at hlt ⊢
    rcases hlt with h' | ⟨hy, h'⟩
    · rcases Nat.lt_or_ge ye yw with h'' | h''
      · omega
      · have hye : ye = yw := by omega
        have hmw : mw = 12 := by omega
        subst hye hmw
        rcases Nat.lt_or_ge me 12 with hm | hm
        · omega
        · have hmm : me = 12 := by omega
          subst hmm
          omega
    · omega

theorem subDays?_valid {a b : Date} {n : Nat} (ha : a.valid = true)
    (h : subDays? a n = some b) : b.valid = true := by
  induction n generalizing b with
  | zero =>
    simp only [subDays?, Option.some.injEq] at h
    subst h; exact ha
  | succ n ih =>
    simp only [subDays?, Option.bind_eq_some] at h
    obtain ⟨c, hc, hcb⟩ := h
    exact pred?_valid (ih hc) hcb

/-! Store lemmas. -/

theorem dateLe_dateMax2_left (a b : Date) : dateLe a (dateMax2 a b) = true := by
  unfold dateMax2
  split_ifs with h
  · exact dateLt_le h
  · exact dateLe_refl a

theorem dateLe_dateMax2_right (a b : Date) : dateLe b (dateMax2 a b) = true := by
  unfold dateMax2
  split_ifs with h
  · exact dateLe_refl b
  · cases hba : dateLe b a with
    | true => rfl
    | false =>
      exact absurd (dateLt_iff_not_le.mpr (by simp [hba])) h

theorem dateMax2_cases (a b : Date) : dateMax2 a b = a ∨ dateMax2 a b = b := by
  unfold dateMax2
  split_ifs <;> simp

theorem hasRowD_iff {s : Store} {d : Date} :
    hasRowD s d = true ↔ ∃ r ∈ s, r.date = d := by
  simp [hasRowD, List.any_eq_true]

theorem allValid_iff {s : Store} :
    allValid s = true ↔ ∀ r ∈ s, r.date.valid = true := by
  simp [allValid, List.all_eq_true]

theorem latestFrom_cons (acc : Option Date) (r : Row) (s : Store) :
    latestFrom acc (r :: s) =
      latestFrom (some (match acc with
        | none => r.date
        | some w => dateMax2 w r.date)) s := rfl

theorem latestFrom_some_spec (s : Store) :
    ∀ w : Date, ∃ u, latestFrom (some w) s = some u ∧ dateLe w u = true ∧
      (u = w ∨ ∃ r ∈ s, r.date = u) ∧ ∀ r ∈ s, dateLe r.date u = true := by
  induction s with
  | nil =>
    intro w
    exact ⟨w, rfl, dateLe_refl w, Or.inl rfl, by simp⟩
  | cons r rest ih =>
    intro w
    obtain ⟨u, h1, h2, h3, h4⟩ := ih (dateMax2 w r.date)
    refine ⟨u, ?_, ?_, ?_, ?_⟩
    · rw [latestFrom_cons]
      exact h1
    · exact dateLe_trans (dateLe_dateMax2_left w r.date) h2
    · rcases h3 with rfl | ⟨r', hr', hd⟩
      · rcases dateMax2_cases w r.date with hmax | hmax
        · exact Or.inl hmax
        · exact Or.inr ⟨r, List.mem_cons_self r rest, hmax.symm⟩
      · exact Or.inr ⟨r', List.mem_cons_of_mem r hr', hd⟩
    · intro r' hr'
      rcases List.mem_cons.mp hr' with rfl | hr'
      · exact dateLe_trans (dateLe_dateMax2_right w r'.date) h2
      · exact h4 r' hr'

theorem get_latest_date_none_iff {s : Store} : get_latest_date s = none ↔ s = [] := by
  cases s with
  | nil => simp [get_latest_date, latestFrom]
  | cons r rest =>
    obtain ⟨u, h1, _, _, _⟩ := latestFrom_some_spec rest r.date
    constructor
    · intro h
      rw [get_latest_date, latestFrom_cons] at h
      dsimp only at h
      rw [h1] at h
      cases h
    · intro h
      cases h

theorem get_latest_date_spec {s : Store} {w : Date} (h : get_latest_date s = some w) :
    (∃ r ∈ s, r.date = w) ∧ ∀ r ∈ s, dateLe r.date w = true := by
  cases s with
  | nil => cases h
  | cons r rest =>
    obtain ⟨u, h1, h2, h3, h4⟩ := latestFrom_some_spec rest r.date
    rw [get_latest_date, latestFrom_cons] at h
    dsimp only at h
    rw [h1] at h
    injection h with h
    subst h
    constructor
    · rcases h3 with rfl | ⟨r', hr', hd⟩
      · exact ⟨r, List.mem_cons_self r rest, rfl⟩
      · exact ⟨r', List.mem_cons_of_mem r hr', hd⟩
    · intro r' hr'
      rcases List.mem_cons.mp hr' with rfl | hr'
      · exact h2
      · exact h4 r' hr'

theorem get_latest_date_eq {s : Store} {u : Date} (h1 : ∃ r ∈ s, r.date = u)
    (h2 : ∀ r ∈ s, dateLe r.date u = true) : get_latest_date s = some u := by
  cases hg : get_latest_date s with
  | none =>
    rw [get_latest_date_none_iff] at hg
    subst hg
    obtain ⟨r, hr, _⟩ := h1
    cases hr
  | some w =>
    obtain ⟨⟨r, hr, hd⟩, hub⟩ := get_latest_date_spec hg
    obtain ⟨r', hr', hd'⟩ := h1
    have hle1 : dateLe w u = true := by
      rw [← hd]
      exact h2 r hr
    have hle2 : dateLe u w = true := by
      rw [← hd']
      exact hub r' hr'
    rw [dateLe_antisymm hle2 hle1]

theorem upsertRows_cons (s : Store) (d : Date) (p : Nat × Int) (rest : List (Nat × Int)) :
    upsertRows s d (p :: rest) = upsertRows (upsertOne s d p.1 p.2) d rest := rfl

theorem keyMem_cons (p : Nat × Int) (rest : List (Nat × Int)) (m : Nat) :
    keyMem (p :: rest) m = (decide (p.1 = m) || keyMem rest m) := by
  simp [keyMem, List.any_cons]

theorem mem_upsertOne {r : Row} {s : Store} {d : Date} {m : Nat} {v : Int}
    (h : r ∈ upsertOne s d m v) : r = ⟨d, m, v⟩ ∨ r ∈ s := by
  rcases List.mem_cons.mp h with h | h
  · exact Or.inl h
  · exact Or.inr (List.mem_of_mem_filter h)

theorem mem_upsertRows {r : Row} {rows : List (Nat × Int)} {s : Store} {d : Date}
    (h : r ∈ upsertRows s d rows) :
    (r.date = d ∧ keyMem rows r.minuteOfDay = true) ∨ r ∈ s := by
  induction rows generalizing s with
  | nil => exact Or.inr h
  | cons p rest ih =>
    rw [upsertRows_cons] at h
    rcases ih h with ⟨hd, hk⟩ | h'
    · refine Or.inl ⟨hd, ?_⟩
      rw [keyMem_cons, hk]
      simp
    · rcases mem_upsertOne h' with rfl | h''
      · refine Or.inl ⟨rfl, ?_⟩
        rw [keyMem_cons]
        simp
      · exact Or.inr h''

theorem hasRowD_upsertOne_other {s : Store} {d : Date} {m : Nat} {v : Int} {e : Date}
    (h : e ≠ d) : hasRowD (upsertOne s d m v) e = hasRowD s e := by
  rw [Bool.eq_iff_iff, hasRowD_iff, hasRowD_iff]
  constructor
  · rintro ⟨r, hr, hd⟩
    rcases mem_upsertOne hr with rfl | hr'
    · exact absurd hd.symm (by simpa using h)
    · exact ⟨r, hr', hd⟩
  · rintro ⟨r, hr, hd⟩
    refine ⟨r, List.mem_cons_of_mem _ (List.mem_filter.mpr ⟨hr, ?_⟩), hd⟩
    simp only [Bool.not_eq_eq_eq_not, Bool.not_true, decide_eq_false_iff_not]
    rintro ⟨hd', _⟩
    exact h (hd ▸ hd' ▸ rfl)

theorem hasRowD_upsertRows_other {s : Store} {d : Date} {rows : List (Nat × Int)} {e : Date}
    (h : e ≠ d) : hasRowD (upsertRows s d rows) e = hasRowD s e := by
  induction rows generalizing s with
  | nil => rfl
  | cons p rest ih =>
    rw [upsertRows_cons, ih, hasRowD_upsertOne_other h]

theorem hasRowD_upsertRows_self {s : Store} {d : Date} {rows : List (Nat × Int)}
    (h : rows ≠ []) : hasRowD (upsertRows s d rows) d = true := by
  induction rows generalizing s with
  | nil => exact absurd rfl h
  | cons p rest ih =>
    rw [upsertRows_cons]
    rcases rest with _ | ⟨q, rest'⟩
    · rw [hasRowD_iff]
      exact ⟨⟨d, p.1, p.2⟩, List.mem_cons_self _ _, rfl⟩
    · exact ih (by simp)

/-! Claim theorems, first batch. -/

/-- C1: for every today, watermark and initialBackfillDays, the day chosen
for processing is watermark + 1 day when the watermark is non-empty and
today - initialBackfillDays when it is empty; the chosen day is processed
(fetched, ending in a processed or fetch-failed step) exactly when it is
at most yesterday, and otherwise no day is processed and the run reports
itself caught up with the store unchanged. -/
theorem C1_next_day (cfg : Config) (s : Store) (orc : IterOracle) (lastFull : Date)
    (hlf : cfg.today.pred? = some lastFull) :
    (get_latest_date s = none →
      nextDateToFetch cfg s = subDays? cfg.today cfg.initialDaysBack) ∧
    (∀ w, get_latest_date s = some w → nextDateToFetch cfg s = w.succ?) ∧
    (∀ nd, nextDateToFetch cfg s = some nd →
      (dateLe nd lastFull = true →
        step cfg orc s = .fetchFailed nd s ∨ ∃ s', step cfg orc s = .processed nd s') ∧
      (dateLe nd lastFull = false → step cfg orc s = .caughtUp s)) := by
  refine ⟨?_, ?_, ?_⟩
  · intro h
    unfold nextDateToFetch
    rw [h]
  · intro w h
    unfold nextDateToFetch
    rw [h]
  · intro nd h
    constructor
    · intro hdue
      unfold step
      rw [hlf, h]
      dsimp only
      rw [if_pos hdue]
      cases hfetch : orc.fetch with
      | failure => exact Or.inl rfl
      | success es =>
        right
        by_cases hes : es = []
        · exact ⟨_, by dsimp only; rw [if_pos hes]⟩
        · exact ⟨_, by dsimp only; rw [if_neg hes]⟩
    · intro hnot
      unfold step
      rw [hlf, h]
      dsimp only
      rw [if_neg (by simp [hnot])]

/-- C1 witness: with today 2024-03-20 and an empty store the chosen day is
today minus the backfill days; with watermark 2024-03-19 nothing is due
and the step reports itself caught up. -/
theorem C1_next_day_witness :
    nextDateToFetch ⟨⟨2024, 3, 20⟩, 14, 0⟩ [] = subDays? ⟨2024, 3, 20⟩ 14 ∧
    step ⟨⟨2024, 3, 20⟩, 14, 0⟩ ⟨.failure, true, true⟩ [⟨⟨2024, 3, 19⟩, 0, 0⟩] =
      .caughtUp [⟨⟨2024, 3, 19⟩, 0, 0⟩] := by
  constructor
  · exact (C1_next_day ⟨⟨2024, 3, 20⟩, 14, 0⟩ [] ⟨.failure, true, true⟩ ⟨2024, 3, 19⟩
      (by decide)).1 (by decide)
  · exact ((C1_next_day ⟨⟨2024, 3, 20⟩, 14, 0⟩ [⟨⟨2024, 3, 19⟩, 0, 0⟩] ⟨.failure, true, true⟩
      ⟨2024, 3, 19⟩ (by decide)).2.2 ⟨2024, 3, 20⟩ (by decide)).2 (by decide)

/-- C2 counterexample: the claim says that when any row with the date
exists, at any minute, mark_day_as_checked leaves the store unchanged;
but with a real row at minute 5 and none at minute 0, the INSERT OR
IGNORE conflicts on nothing and the sentinel row is added, changing the
store. -/
theorem C2_counterexample :
    hasRowD [⟨⟨2024, 3, 20⟩, 5, 100⟩] ⟨2024, 3, 20⟩ = true ∧
    mark_day_as_checked true [⟨⟨2024, 3, 20⟩, 5, 100⟩] ⟨2024, 3, 20⟩ ≠
      [⟨⟨2024, 3, 20⟩, 5, 100⟩] ∧
    mark_day_as_checked true [⟨⟨2024, 3, 20⟩, 5, 100⟩] ⟨2024, 3, 20⟩ =
      [⟨⟨2024, 3, 20⟩, 0, 0⟩, ⟨⟨2024, 3, 20⟩, 5, 100⟩] := by
  decide

/-- C2 amended: mark_day_as_checked writes the sentinel placeholder row
(date, 0, 0) if and only if no row with the primary key (date, minute 0)
exists yet; rows at other minutes of the same date do not suppress the
insert. Existing rows are never modified or removed, so real data is
never clobbered. -/
theorem C2_mark_day_insert_if_absent (s : Store) (d : Date) :
    (rowLookup s d 0 = none → mark_day_as_checked true s d = ⟨d, 0, 0⟩ :: s) ∧
    (rowLookup s d 0 ≠ none → mark_day_as_checked true s d = s) ∧
    (∀ r ∈ s, r ∈ mark_day_as_checked true s d) ∧
    (∀ d' m', ¬(d' = d ∧ m' = 0) →
      rowLookup (mark_day_as_checked true s d) d' m' = rowLookup s d' m') := by
  refine ⟨?_, ?_, ?_, ?_⟩
  · intro h
    simp [mark_day_as_checked, h]
  · intro h
    simp [mark_day_as_checked, h]
  · intro r hr
    unfold mark_day_as_checked
    simp only [if_true]
    split_ifs with h
    · exact List.mem_cons_of_mem _ hr
    · exact hr
  · intro d' m' h
    unfold mark_day_as_checked
    simp only [if_true]
    split_ifs with h1
    · unfold rowLookup
      rw [List.find?_cons_of_neg]
      simp only [decide_eq_true_eq, not_and]
      intro hd hm
      exact h ⟨hd.symm, hm.symm⟩
    · rfl

/-- C2 amended witness: inserting into a store holding only a minute-5 row
for another date adds the sentinel; inserting when the key (date, 0)
is taken changes nothing. -/
theorem C2_mark_day_insert_if_absent_witness :
    mark_day_as_checked true [⟨⟨2024, 3, 19⟩, 5, 100⟩] ⟨2024, 3, 20⟩ =
      ⟨⟨2024, 3, 20⟩, 0, 0⟩ :: [⟨⟨2024, 3, 19⟩, 5, 100⟩] ∧
    mark_day_as_checked true [⟨⟨2024, 3, 20⟩, 0, 77⟩] ⟨2024, 3, 20⟩ =
      [⟨⟨2024, 3, 20⟩, 0, 77⟩] ∧
    rowLookup (mark_day_as_checked true [⟨⟨2024, 3, 19⟩, 5, 100⟩] ⟨2024, 3, 20⟩)
      ⟨2024, 3, 19⟩ 5 = rowLookup [⟨⟨2024, 3, 19⟩, 5, 100⟩] ⟨2024, 3, 19⟩ 5 := by
  refine ⟨?_, ?_, ?_⟩
  · exact (C2_mark_day_insert_if_absent [⟨⟨2024, 3, 19⟩, 5, 100⟩] ⟨2024, 3, 20⟩).1 (by decide)
  · exact (C2_mark_day_insert_if_absent [⟨⟨2024, 3, 20⟩, 0, 77⟩] ⟨2024, 3, 20⟩).2.1 (by decide)
  · exact (C2_mark_day_insert_if_absent [⟨⟨2024, 3, 19⟩, 5, 100⟩] ⟨2024, 3, 20⟩).2.2.2
      ⟨2024, 3, 19⟩ 5 (by decide)

/-- C3 counterexample: the claim says a storage error during the upsert is
surfaced to the caller (non-zero exit or escalated failure). In the code
the failed transaction makes insert_minute_averages return 0, the exact
value returned after successfully marking an empty day, and the loop step
is an ordinary processed step, indistinguishable from success, so nothing
escalates and the script exit status stays zero. -/
theorem C3_counterexample :
    insert_minute_averages 0 true false [] ⟨2024, 3, 18⟩ [⟨some 1, some 100⟩] = ([], 0) ∧
    (insert_minute_averages 0 true false [] ⟨2024, 3, 18⟩ [⟨some 1, some 100⟩]).2 =
      (insert_minute_averages 0 true true [] ⟨2024, 3, 18⟩ [⟨some 1, none⟩]).2 ∧
    step ⟨⟨2024, 3, 20⟩, 2, 0⟩ ⟨.success [⟨some 1, some 100⟩], false, true⟩ [] =
      .processed ⟨2024, 3, 18⟩ [] := by
  decide

/-- C3 amended: on a storage error during the upsert the transaction is
rolled back and the store is exactly unchanged, so the watermark does not
advance for that day; but the error is only logged: the function returns
0, as for an empty day, and the loop continues with an ordinary processed
step instead of surfacing a failure. -/
theorem C3_storage_error_rolls_back (tz : Int) (markOk : Bool) (s : Store)
    (entries : List Entry) (h : collectMinutes tz entries ≠ []) :
    (∀ d, insert_minute_averages tz markOk false s d entries = (s, 0)) ∧
    (∀ cfg orc nd lastFull, cfg.tz = tz → orc.markOk = markOk → orc.writeOk = false →
      orc.fetch = .success entries → entries ≠ [] →
      cfg.today.pred? = some lastFull → nextDateToFetch cfg s = some nd →
      dateLe nd lastFull = true →
      step cfg orc s = .processed nd s) := by
  have hins : ∀ d, insert_minute_averages tz markOk false s d entries = (s, 0) := by
    intro d
    unfold insert_minute_averages
    rw [if_neg h]
    simp
  refine ⟨hins, ?_⟩
  intro cfg orc nd lastFull htz hmk hwk hf hne hlf hnext hdue
  unfold step
  rw [hlf, hnext]
  dsimp only
  rw [if_pos hdue, hf]
  dsimp only
  rw [if_neg hne, htz, hmk, hwk, hins nd]

/-- C3 amended witness: one valid entry, write transaction failing. -/
theorem C3_storage_error_rolls_back_witness :
    insert_minute_averages 0 true false [⟨⟨2024, 3, 17⟩, 0, 0⟩] ⟨2024, 3, 18⟩
      [⟨some 1, some 100⟩] = ([⟨⟨2024, 3, 17⟩, 0, 0⟩], 0) ∧
    step ⟨⟨2024, 3, 20⟩, 2, 0⟩ ⟨.success [⟨some 1, some 100⟩], false, true⟩
      [⟨⟨2024, 3, 17⟩, 0, 0⟩] = .processed ⟨2024, 3, 18⟩ [⟨⟨2024, 3, 17⟩, 0, 0⟩] := by
  constructor
  · exact (C3_storage_error_rolls_back 0 true [⟨⟨2024, 3, 17⟩, 0, 0⟩]
      [⟨some 1, some 100⟩] (by decide)).1 ⟨2024, 3, 18⟩
  · exact (C3_storage_error_rolls_back 0 true [⟨⟨2024, 3, 17⟩, 0, 0⟩]
      [⟨some 1, some 100⟩] (by decide)).2 ⟨⟨2024, 3, 20⟩, 2, 0⟩
      ⟨.success [⟨some 1, some 100⟩], false, true⟩ ⟨2024, 3, 18⟩ ⟨2024, 3, 19⟩
      rfl rfl rfl rfl (by decide) (by decide) (by decide) (by decide)

/-- C5: in full catch-up mode a fetch failure for a due day stops the loop
immediately with nothing written: the step returns the store exactly as
it was, and the run ends with a fetch error and that same store, so a
subsequent invocation recomputes the same next day from the unchanged
watermark. -/
theorem C5_fetch_failure_stops (cfg : Config) (orc : IterOracle) (s : Store)
    (nd lastFull : Date) (h1 : cfg.today.pred? = some lastFull)
    (h2 : nextDateToFetch cfg s = some nd) (h3 : dateLe nd lastFull = true)
    (h4 : orc.fetch = .failure) :
    step cfg orc s = .fetchFailed nd s ∧
    (∀ orcs : Nat → IterOracle, ∀ i fuel, orcs i = orc →
      run cfg orcs (fuel + 1) s i = (s, .fetchError)) := by
  have hstep : step cfg orc s = .fetchFailed nd s := by
    unfold step
    rw [h1, h2]
    dsimp only
    rw [if_pos h3, h4]
  refine ⟨hstep, ?_⟩
  intro orcs i fuel ho
  simp only [run, ho, hstep]

/-- C5 witness: a failing fetch for the due day 2024-03-18. -/
theorem C5_fetch_failure_stops_witness :
    step ⟨⟨2024, 3, 20⟩, 2, 0⟩ ⟨.failure, true, true⟩ [⟨⟨2024, 3, 17⟩, 0, 0⟩] =
      .fetchFailed ⟨2024, 3, 18⟩ [⟨⟨2024, 3, 17⟩, 0, 0⟩] ∧
    run ⟨⟨2024, 3, 20⟩, 2, 0⟩ (fun _ => ⟨.failure, true, true⟩) 4 [⟨⟨2024, 3, 17⟩, 0, 0⟩] 0 =
      ([⟨⟨2024, 3, 17⟩, 0, 0⟩], .fetchError) := by
  constructor
  · exact (C5_fetch_failure_stops ⟨⟨2024, 3, 20⟩, 2, 0⟩ ⟨.failure, true, true⟩
      [⟨⟨2024, 3, 17⟩, 0, 0⟩] ⟨2024, 3, 18⟩ ⟨2024, 3, 19⟩ (by decide) (by decide)
      (by decide) rfl).1
  · exact (C5_fetch_failure_stops ⟨⟨2024, 3, 20⟩, 2, 0⟩ ⟨.failure, true, true⟩
      [⟨⟨2024, 3, 17⟩, 0, 0⟩] ⟨2024, 3, 18⟩ ⟨2024, 3, 19⟩ (by decide) (by decide)
      (by decide) rfl).2 (fun _ => ⟨.failure, true, true⟩) 0 3 rfl

/-- C10: insert_minute_averages returns 0 both when the entries hold no
valid sample, in which case the sentinel row is written and the day
counts as processed (it becomes the latest date), and when the write of
computed averages fails, in which case nothing at all is written; the
return value 0 therefore does not distinguish a marked empty day from a
failed write. -/
theorem C10_return_zero_ambiguous :
    (insert_minute_averages 0 true true [] ⟨2024, 3, 18⟩ [⟨some 1, none⟩]).2 = 0 ∧
    (insert_minute_averages 0 true true [] ⟨2024, 3, 18⟩ [⟨some 1, none⟩]).1 =
      [⟨⟨2024, 3, 18⟩, 0, 0⟩] ∧
    get_latest_date [⟨⟨2024, 3, 18⟩, 0, 0⟩] = some ⟨2024, 3, 18⟩ ∧
    (insert_minute_averages 0 true false [] ⟨2024, 3, 18⟩ [⟨some 1, some 100⟩]).2 = 0 ∧
    (insert_minute_averages 0 true false [] ⟨2024, 3, 18⟩ [⟨some 1, some 100⟩]).1 = [] := by
  decide

/-! Decomposition of the upsert, for the idempotence claim C7. -/

theorem find?_filter_of_imp {α : Type} {p q : α → Bool} (l : List α)
    (h : ∀ x, p x = true → q x = true) : (l.filter q).find? p = l.find? p := by
  induction l with
  | nil => rfl
  | cons a l ih =>
    by_cases hq : q a = true
    · rw [List.filter_cons_of_pos hq]
      by_cases hp : p a = true
      · rw [List.find?_cons_of_pos _ hp, List.find?_cons_of_pos _ hp]
      · rw [List.find?_cons_of_neg _ hp, List.find?_cons_of_neg _ hp, ih]
    · have hp : ¬ p a = true := fun hpa => hq (h a hpa)
      rw [List.filter_cons_of_neg hq, List.find?_cons_of_neg _ hp, ih]

theorem stripDay_pred_cons (d : Date) (p : Nat × Int) (rest : List (Nat × Int)) (r : Row) :
    (!decide (r.date = d ∧ keyMem rest r.minuteOfDay = true) &&
      !decide (r.date = d ∧ r.minuteOfDay = p.1)) =
    !decide (r.date = d ∧ keyMem (p :: rest) r.minuteOfDay = true) := by
  by_cases h1 : r.date = d
  · by_cases h2 : p.1 = r.minuteOfDay
    · simp [h1, h2, keyMem_cons]
    · have h2' : ¬ r.minuteOfDay = p.1 := fun hm => h2 hm.symm
      simp [h1, h2, h2', keyMem_cons]
  · simp [h1]

theorem stripDay_upsertOne (d : Date) (p : Nat × Int) (rest : List (Nat × Int)) (s : Store) :
    stripDay d rest (upsertOne s d p.1 p.2) =
      stripDay d rest (upsertOne [] d p.1 p.2) ++ stripDay d (p :: rest) s := by
  unfold upsertOne stripDay
  rw [List.filter_cons, List.filter_cons]
  simp only [List.filter_nil]
  rw [List.filter_filter]
  have hcong : List.filter
      (fun r => !decide (r.date = d ∧ keyMem rest r.minuteOfDay = true) &&
        !decide (r.date = d ∧ r.minuteOfDay = p.1)) s =
      List.filter (fun r => !decide (r.date = d ∧ keyMem (p :: rest) r.minuteOfDay = true)) s :=
    List.filter_congr (fun r _ => stripDay_pred_cons d p rest r)
  rw [hcong]
  split_ifs <;> simp

theorem upsertRows_decomp (d : Date) :
    ∀ (rows : List (Nat × Int)) (s : Store),
      upsertRows s d rows = upsertRows [] d rows ++ stripDay d rows s := by
  intro rows
  induction rows with
  | nil =>
    intro s
    show s = [] ++ List.filter _ s
    rw [List.nil_append]
    have : ∀ r : Row, r ∈ s → (!decide (r.date = d ∧ keyMem ([] : List (Nat × Int)) r.minuteOfDay = true)) = true := by
      intro r _
      simp [keyMem]
    rw [List.filter_eq_self.mpr this]
  | cons p rest ih =>
    intro s
    rw [upsertRows_cons, ih (upsertOne s d p.1 p.2), upsertRows_cons,
      ih (upsertOne [] d p.1 p.2), List.append_assoc, stripDay_upsertOne]

theorem mem_upsertRows_nil {r : Row} {rows : List (Nat × Int)} {d : Date}
    (h : r ∈ upsertRows [] d rows) : r.date = d ∧ keyMem rows r.minuteOfDay = true := by
  rcases mem_upsertRows h with h' | h'
  · exact h'
  · cases h'

theorem stripDay_upsertNil (d : Date) (rows : List (Nat × Int)) :
    stripDay d rows (upsertRows [] d rows) = [] := by
  rw [stripDay, List.filter_eq_nil_iff]
  intro r hr
  have h := mem_upsertRows_nil hr
  simp [h.1, h.2]

theorem stripDay_idem (d : Date) (rows : List (Nat × Int)) (s : Store) :
    stripDay d rows (stripDay d rows s) = stripDay d rows s := by
  unfold stripDay
  rw [List.filter_filter]
  exact List.filter_congr (fun r _ => by simp [Bool.and_self])

theorem stripDay_append (d : Date) (rows : List (Nat × Int)) (s t : Store) :
    stripDay d rows (s ++ t) = stripDay d rows s ++ stripDay d rows t :=
  List.filter_append _ _

/-- C7: upserting the same row set for a date twice leaves the store in the
same state as upserting it once; keys (date, minuteOfDay) other than the
written ones are unchanged by the call. -/
theorem C7_upsert_idempotent (s : Store) (d : Date) (rows : List (Nat × Int)) :
    upsertRows (upsertRows s d rows) d rows = upsertRows s d rows ∧
    (∀ d' m', ¬(d' = d ∧ keyMem rows m' = true) →
      rowLookup (upsertRows s d rows) d' m' = rowLookup s d' m') := by
  constructor
  · rw [upsertRows_decomp d rows (upsertRows s d rows), upsertRows_decomp d rows s,
      stripDay_append, stripDay_upsertNil, List.nil_append, stripDay_idem]
  · intro d' m' h
    rw [upsertRows_decomp]
    unfold rowLookup
    rw [List.find?_append]
    have h1 : List.find? (fun r => decide (r.date = d' ∧ r.minuteOfDay = m'))
        (upsertRows [] d rows) = none := by
      rw [List.find?_eq_none]
      intro r hr
      have h2 := mem_upsertRows_nil hr
      simp only [decide_eq_true_eq, not_and]
      intro hd hm
      exact absurd ⟨by rw [← hd, h2.1], by rw [← hm]; exact h2.2⟩ h
    rw [h1, Option.none_or]
    have h3 : (stripDay d rows s).find? (fun r => decide (r.date = d' ∧ r.minuteOfDay = m')) =
        s.find? (fun r => decide (r.date = d' ∧ r.minuteOfDay = m')) := by
      apply find?_filter_of_imp
      intro r hp
      simp only [decide_eq_true_eq] at hp
      simp only [Bool.not_eq_eq_eq_not, Bool.not_true, decide_eq_false_iff_not, not_and]
      intro hd hk
      exact absurd ⟨by rw [← hp.1, hd], by rw [← hp.2]; exact hk⟩ h
    rw [h3]

/-- C7 witness: a two-row upsert repeated, and an untouched key. -/
theorem C7_upsert_idempotent_witness :
    upsertRows (upsertRows [⟨⟨2024, 3, 17⟩, 3, 7⟩] ⟨2024, 3, 18⟩ [(0, 10), (2, 20)])
        ⟨2024, 3, 18⟩ [(0, 10), (2, 20)] =
      upsertRows [⟨⟨2024, 3, 17⟩, 3, 7⟩] ⟨2024, 3, 18⟩ [(0, 10), (2, 20)] ∧
    rowLookup (upsertRows [⟨⟨2024, 3, 17⟩, 3, 7⟩] ⟨2024, 3, 18⟩ [(0, 10), (2, 20)])
        ⟨2024, 3, 17⟩ 3 = rowLookup [⟨⟨2024, 3, 17⟩, 3, 7⟩] ⟨2024, 3, 17⟩ 3 := by
  constructor
  · exact (C7_upsert_idempotent [⟨⟨2024, 3, 17⟩, 3, 7⟩] ⟨2024, 3, 18⟩ [(0, 10), (2, 20)]).1
  · exact (C7_upsert_idempotent [⟨⟨2024, 3, 17⟩, 3, 7⟩] ⟨2024, 3, 18⟩ [(0, 10), (2, 20)]).2
      ⟨2024, 3, 17⟩ 3 (by decide)

/-! Reducer lemmas, for claim C6. -/

theorem accLookup_addSample_self (m : Nat) (v : Int) :
    ∀ acc : List (Nat × Int × Nat),
      accLookup (addSample m v acc) m =
        some (match accLookup acc m with
          | none => (v, 1)
          | some q => (q.1 + v, q.2 + 1)) := by
  intro acc
  induction acc with
  | nil =>
    simp [addSample, accLookup]
  | cons p rest ih =>
    obtain ⟨m', sm, c⟩ := p
    by_cases hp : m' = m
    · subst hp
      simp [addSample, accLookup]
    · rw [addSample, if_neg hp]
      have hfind : ∀ tl : List (Nat × Int × Nat),
          accLookup ((m', sm, c) :: tl) m = accLookup tl m := by
        intro tl
        unfold accLookup
        rw [List.find?_cons_of_neg]
        simp [hp]
      rw [hfind, hfind, ih]

theorem accLookup_addSample_other {m m' : Nat} (h : m' ≠ m) (v : Int) :
    ∀ acc : List (Nat × Int × Nat),
      accLookup (addSample m v acc) m' = accLookup acc m' := by
  intro acc
  induction acc with
  | nil =>
    unfold addSample accLookup
    rw [List.find?_cons_of_neg _ (by simp; exact fun hmm => h hmm.symm)]
  | cons p rest ih =>
    obtain ⟨m0, sm, c⟩ := p
    by_cases hp : m0 = m
    · subst hp
      rw [addSample, if_pos rfl]
      unfold accLookup
      by_cases hm : m0 = m'
      · exact absurd hm.symm h
      · rw [List.find?_cons_of_neg _ (by simp [hm]), List.find?_cons_of_neg _ (by simp [hm])]
    · rw [addSample, if_neg hp]
      unfold accLookup
      by_cases hm : m0 = m'
      · rw [List.find?_cons_of_pos _ (by simp [hm]), List.find?_cons_of_pos _ (by simp [hm])]
      · rw [List.find?_cons_of_neg _ (by simp [hm]), List.find?_cons_of_neg _ (by simp [hm])]
        exact ih

theorem specValidSamples_nil (tz : Int) : specValidSamples tz [] = [] := rfl

theorem foldl_add_shift (l : List (Nat × Int)) :
    ∀ a : Int, l.foldl (fun x p => x + p.2) a = a + l.foldl (fun x p => x + p.2) 0 := by
  induction l with
  | nil => simp
  | cons p rest ih =>
    intro a
    simp only [List.foldl_cons]
    rw [ih (a + p.2), ih (0 + p.2)]
    ring

theorem collect_fold (tz : Int) :
    ∀ (es : List Entry) (acc : List (Nat × Int × Nat)) (m : Nat),
      accLookup (es.foldl (collectEntry tz) acc) m =
        combineCell (accLookup acc m) (sumCount tz es m) := by
  intro es
  induction es with
  | nil =>
    intro acc m
    cases h : accLookup acc m <;>
      simp [sumCount, specValidSamples, combineCell, h]
  | cons e es ih =>
    intro acc m
    simp only [List.foldl_cons]
    rw [ih]
    rcases he : e.date with _ | ms
    · have hce : collectEntry tz acc e = acc := by
        unfold collectEntry
        rw [he]
      have hsv : specValidSamples tz (e :: es) = specValidSamples tz es := by
        unfold specValidSamples
        simp only [List.filterMap_cons, he]
      rw [hce]
      unfold sumCount
      rw [hsv]
    · rcases hs : e.sgv with _ | v
      · have hce : collectEntry tz acc e = acc := by
          unfold collectEntry
          rw [he, hs]
        have hsv : specValidSamples tz (e :: es) = specValidSamples tz es := by
          unfold specValidSamples
          simp only [List.filterMap_cons, he, hs]
        rw [hce]
        unfold sumCount
        rw [hsv]
      · have hce : collectEntry tz acc e = addSample (minuteOfDay tz ms) v acc := by
          unfold collectEntry
          rw [he, hs]
        have hsv : specValidSamples tz (e :: es) =
            (minuteOfDay tz ms, v) :: specValidSamples tz es := by
          unfold specValidSamples
          simp only [List.filterMap_cons, he, hs]
        rw [hce]
        unfold sumCount
        rw [hsv]
        by_cases hm : m = minuteOfDay tz ms
        · subst hm
          rw [accLookup_addSample_self]
          rw [List.filter_cons_of_pos (by simp)]
          simp only [List.foldl_cons, List.length_cons]
          rw [foldl_add_shift _ (0 + v)]
          cases hc : accLookup acc (minuteOfDay tz ms) <;>
            simp only [combineCell] <;> (try dsimp only) <;>
            simp only [Nat.succ_ne_zero, if_neg, Option.some.injEq, Prod.mk.injEq,
              Nat.add_eq_zero, and_false, if_false] <;>
            exact ⟨by omega, by omega⟩
        · rw [accLookup_addSample_other (fun hmm => hm hmm) v]
          rw [List.filter_cons_of_neg (by simp; exact fun hmm => hm hmm.symm)]

theorem minuteLookup_map (acc : List (Nat × Int × Nat)) (m : Nat) :
    minuteLookup (acc.map (fun p => (p.1, pyRound p.2.1 p.2.2))) m =
      (accLookup acc m).map (fun q => pyRound q.1 q.2) := by
  induction acc with
  | nil => rfl
  | cons p rest ih =>
    obtain ⟨m0, sm, c⟩ := p
    by_cases hp : m0 = m
    · subst hp
      unfold minuteLookup accLookup
      rw [List.map_cons, List.find?_cons_of_pos _ (by simp), List.find?_cons_of_pos _ (by simp)]
      rfl
    · unfold minuteLookup accLookup
      rw [List.map_cons, List.find?_cons_of_neg _ (by simp [hp]),
        List.find?_cons_of_neg _ (by simp [hp])]
      exact ih

/-- C6: the reducer groups the valid samples by local minute of day and
outputs, per distinct minute present, the arithmetic mean of their values
rounded half to even (the Python round builtin); samples missing the
value or the timestamp are skipped and contribute to no mean; and on the
concrete two-sample scenario with values 100 and 120 in minute 0 the
output is exactly the row (0, 110). -/
theorem C6_reducer_minute_means (tz : Int) (entries : List Entry) (m : Nat) :
    minuteLookup (reduceRows tz entries) m = specReduce tz entries m ∧
    (∀ (pre post : List Entry) (e : Entry), e.date = none ∨ e.sgv = none →
      reduceRows tz (pre ++ e :: post) = reduceRows tz (pre ++ post)) ∧
    reduceRows 0 [⟨some 10000, some 100⟩, ⟨some 40000, some 120⟩] = [(0, 110)] := by
  refine ⟨?_, ?_, ?_⟩
  · rw [reduceRows, minuteLookup_map, collectMinutes, collect_fold]
    show (combineCell none (sumCount tz entries m)).map _ = _
    unfold combineCell specReduce sumCount
    by_cases hg : (specValidSamples tz entries).filter (fun p => decide (p.1 = m)) = []
    · simp [hg]
    · have hlen : ((specValidSamples tz entries).filter (fun p => decide (p.1 = m))).length ≠ 0 := by
        simpa [List.length_eq_zero] using hg
      simp [hg, hlen]
  · intro pre post e he
    have hce : ∀ acc, collectEntry tz acc e = acc := by
      intro acc
      unfold collectEntry
      rcases he with he | he
      · rw [he]
      · rw [he]
        cases e.date <;> rfl
    unfold reduceRows collectMinutes
    rw [List.foldl_append, List.foldl_append, List.foldl_cons, hce]
  · decide

/-- C6 witness: the concrete scenario and a skipped timestamp-less entry. -/
theorem C6_reducer_minute_means_witness :
    minuteLookup (reduceRows 0 [⟨some 10000, some 100⟩, ⟨some 40000, some 120⟩]) 0 =
      specReduce 0 [⟨some 10000, some 100⟩, ⟨some 40000, some 120⟩] 0 ∧
    reduceRows 0 ([⟨some 10000, some 100⟩] ++ ⟨none, some 55⟩ :: [⟨some 40000, some 120⟩]) =
      reduceRows 0 ([⟨some 10000, some 100⟩] ++ [⟨some 40000, some 120⟩]) := by
  constructor
  · exact (C6_reducer_minute_means 0 [⟨some 10000, some 100⟩, ⟨some 40000, some 120⟩] 0).1
  · exact (C6_reducer_minute_means 0 [] 0).2.1 [⟨some 10000, some 100⟩]
      [⟨some 40000, some 120⟩] ⟨none, some 55⟩ (Or.inl rfl)

/-! Step-level lemmas about the loop, for claims C4 and C8. -/

theorem dateLe_ne_lt {a b : Date} (h1 : dateLe a b = true) (h2 : a ≠ b) :
    dateLt a b = true := by
  obtain ⟨y1, m1, d1⟩ := a
  obtain ⟨y2, m2, d2⟩ := b
  simp only [dateLe, dateLt, decide_eq_true_eq] at h1 ⊢
  simp only [ne_eq, Date.mk.injEq] at h2
  omega

theorem dateLt_ne {a b : Date} (h : dateLt a b = true) : a ≠ b := by
  intro heq
  rw [heq, dateLt_irrefl] at h
  cases h

theorem mem_mark {r : Row} {ok : Bool} {s : Store} {d : Date}
    (h : r ∈ mark_day_as_checked ok s d) : r = ⟨d, 0, 0⟩ ∨ r ∈ s := by
  unfold mark_day_as_checked at h
  split_ifs at h
  · exact List.mem_cons.mp h
  · exact Or.inr h
  · exact Or.inr h

theorem hasRowD_mark_other {ok : Bool} {s : Store} {d e : Date} (h : e ≠ d) :
    hasRowD (mark_day_as_checked ok s d) e = hasRowD s e := by
  unfold mark_day_as_checked
  split_ifs with h1 h2
  · unfold hasRowD
    rw [List.any_cons]
    have : decide ((⟨d, 0, 0⟩ : Row).date = e) = false := by
      simp
      exact fun hh => h hh.symm
    rw [this, Bool.false_or]
  · rfl
  · rfl

theorem hasRowD_mark_true_self (s : Store) (d : Date) :
    mark_day_as_checked true s d = s ∨ hasRowD (mark_day_as_checked true s d) d = true := by
  unfold mark_day_as_checked
  split_ifs with h1
  · right
    unfold hasRowD
    rw [List.any_cons]
    simp
  · left
    rfl
  · left
    rfl

theorem collectMinutes_ne_nil {tz : Int} {es : List Entry}
    (h : ∃ e ∈ es, e.date ≠ none ∧ e.sgv ≠ none) : collectMinutes tz es ≠ [] := by
  intro hnil
  obtain ⟨e, he, hd, hs⟩ := h
  rcases hdd : e.date with _ | ms
  · exact hd hdd
  rcases hvv : e.sgv with _ | v
  · exact hs hvv
  have h1 : (minuteOfDay tz ms, v) ∈ specValidSamples tz es := by
    rw [specValidSamples, List.mem_filterMap]
    exact ⟨e, he, by rw [hdd, hvv]⟩
  have h2 : (specValidSamples tz es).filter
      (fun p => decide (p.1 = minuteOfDay tz ms)) ≠ [] := by
    intro hf
    rw [List.filter_eq_nil_iff] at hf
    exact absurd (by simp) (hf _ h1)
  have hlen : ((specValidSamples tz es).filter
      (fun p => decide (p.1 = minuteOfDay tz ms))).length ≠ 0 := by
    simpa [List.length_eq_zero] using h2
  have h3 : accLookup (collectMinutes tz es) (minuteOfDay tz ms) =
      combineCell none (sumCount tz es (minuteOfDay tz ms)) := collect_fold tz es [] _
  rw [hnil] at h3
  simp only [combineCell, sumCount, accLookup, List.find?_nil, Option.map_none] at h3
  rw [if_neg hlen] at h3
  cases h3

theorem reduceRows_ne_nil {tz : Int} {es : List Entry}
    (h : collectMinutes tz es ≠ []) : reduceRows tz es ≠ [] := by
  unfold reduceRows
  simpa [List.map_eq_nil_iff] using h

theorem step_processed_upsert {cfg : Config} {orc : IterOracle} {s : Store}
    {nd lastFull : Date} {es : List Entry}
    (hlf : cfg.today.pred? = some lastFull)
    (hnext : nextDateToFetch cfg s = some nd)
    (hdue : dateLe nd lastFull = true)
    (hf : orc.fetch = .success es) (hes : es ≠ [])
    (hcm : collectMinutes cfg.tz es ≠ []) (hwk : orc.writeOk = true) :
    step cfg orc s = .processed nd (upsertRows s nd (reduceRows cfg.tz es)) := by
  unfold step
  rw [hlf, hnext]
  dsimp only
  rw [if_pos hdue, hf]
  dsimp only
  rw [if_neg hes]
  unfold insert_minute_averages
  rw [if_neg hcm, hwk]
  rfl

theorem step_store_cases (cfg : Config) (orc : IterOracle) (s : Store) :
    (∃ nd s', step cfg orc s = .processed nd s') ∨ step cfg orc s = .caughtUp s ∨
    (∃ nd, step cfg orc s = .fetchFailed nd s) ∨ step cfg orc s = .overflow s := by
  unfold step
  cases cfg.today.pred? with
  | none => exact Or.inr (Or.inr (Or.inr rfl))
  | some lastFull =>
    cases nextDateToFetch cfg s with
    | none => exact Or.inr (Or.inr (Or.inr rfl))
    | some nd =>
      dsimp only
      split_ifs with hdue
      · cases orc.fetch with
        | failure => exact Or.inr (Or.inr (Or.inl ⟨nd, rfl⟩))
        | success es =>
          dsimp only
          split_ifs with hes
          · exact Or.inl ⟨nd, _, rfl⟩
          · exact Or.inl ⟨nd, _, rfl⟩
      · exact Or.inr (Or.inl rfl)

theorem step_caughtUp_eq {cfg : Config} {orc : IterOracle} {s s' : Store}
    (h : step cfg orc s = .caughtUp s') : s' = s := by
  rcases step_store_cases cfg orc s with ⟨nd, s'', hc⟩ | hc | ⟨nd, hc⟩ | hc <;>
    rw [hc] at h <;> first
  | (injection h with h; exact h.symm)
  | cases h

theorem step_fetchFailed_eq {cfg : Config} {orc : IterOracle} {s s' : Store} {nd : Date}
    (h : step cfg orc s = .fetchFailed nd s') : s' = s := by
  rcases step_store_cases cfg orc s with ⟨nd', s'', hc⟩ | hc | ⟨nd', hc⟩ | hc <;>
    rw [hc] at h <;> first
  | (injection h with h1 h2; exact h2.symm)
  | cases h

theorem step_overflow_eq {cfg : Config} {orc : IterOracle} {s s' : Store}
    (h : step cfg orc s = .overflow s') : s' = s := by
  rcases step_store_cases cfg orc s with ⟨nd', s'', hc⟩ | hc | ⟨nd', hc⟩ | hc <;>
    rw [hc] at h <;> first
  | (injection h with h; exact h.symm)
  | cases h

theorem step_processed_store {cfg : Config} {orc : IterOracle} {s s' : Store} {nd : Date}
    (h : step cfg orc s = .processed nd s') :
    nextDateToFetch cfg s = some nd ∧
    (∀ r ∈ s', r.date = nd ∨ r ∈ s) ∧
    (∀ e, e ≠ nd → hasRowD s' e = hasRowD s e) ∧
    (s' = s ∨ hasRowD s' nd = true) := by
  unfold step at h
  cases hp : cfg.today.pred? with
  | none =>
    rw [hp] at h
    cases h
  | some lastFull =>
    rw [hp] at h
    cases hn : nextDateToFetch cfg s with
    | none =>
      rw [hn] at h
      cases h
    | some nd' =>
      rw [hn] at h
      dsimp only at h
      by_cases hdue : dateLe nd' lastFull = true
      · rw [if_pos hdue] at h
        cases hf : orc.fetch with
        | failure =>
          rw [hf] at h
          cases h
        | success es =>
          rw [hf] at h
          dsimp only at h
          have hmark : ∀ ok, mark_day_as_checked ok s nd' = s' →
              (∀ r ∈ s', r.date = nd' ∨ r ∈ s) ∧
              (∀ e, e ≠ nd' → hasRowD s' e = hasRowD s e) ∧
              (s' = s ∨ hasRowD s' nd' = true) := by
            intro ok hm
            subst hm
            refine ⟨?_, ?_, ?_⟩
            · intro r hr
              rcases mem_mark hr with rfl | hr'
              · exact Or.inl rfl
              · exact Or.inr hr'
            · intro e he
              exact hasRowD_mark_other he
            · cases ok with
              | true => exact hasRowD_mark_true_self s nd'
              | false => exact Or.inl rfl
          by_cases hes : es = []
          · rw [if_pos hes] at h
            injection h with h1 h2
            subst h1
            exact ⟨rfl, hmark orc.markOk h2⟩
          · rw [if_neg hes] at h
            unfold insert_minute_averages at h
            by_cases hcm : collectMinutes cfg.tz es = []
            · rw [if_pos hcm] at h
              injection h with h1 h2
              subst h1
              exact ⟨rfl, hmark orc.markOk h2⟩
            · rw [if_neg hcm] at h
              by_cases hwk : orc.writeOk = true
              · rw [if_pos hwk] at h
                dsimp only at h
                injection h with h1 h2
                subst h1
                subst h2
                refine ⟨rfl, ?_, ?_, ?_⟩
                · intro r hr
                  rcases mem_upsertRows hr with ⟨hd, _⟩ | hr'
                  · exact Or.inl hd
                  · exact Or.inr hr'
                · intro e he
                  exact hasRowD_upsertRows_other he
                · exact Or.inr (hasRowD_upsertRows_self (reduceRows_ne_nil hcm))
              · rw [if_neg hwk] at h
                dsimp only at h
                injection h with h1 h2
                subst h1
                subst h2
                exact ⟨rfl, fun r hr => Or.inr hr, fun e _ => rfl, Or.inl rfl⟩
      · rw [if_neg hdue] at h
        cases h

theorem run_succ (cfg : Config) (orcs : Nat → IterOracle) (fuel : Nat) (s : Store) (i : Nat) :
    run cfg orcs (fuel + 1) s i =
      match step cfg (orcs i) s with
      | .processed _ s' => run cfg orcs fuel s' (i + 1)
      | .caughtUp s' => (s', .finished)
      | .fetchFailed _ s' => (s', .fetchError)
      | .overflow s' => (s', .crashed) := rfl

theorem nextDate_valid {cfg : Config} {s : Store} {nd : Date}
    (htoday : cfg.today.valid = true) (hv : allValid s = true)
    (h : nextDateToFetch cfg s = some nd) : nd.valid = true := by
  unfold nextDateToFetch at h
  cases hg : get_latest_date s with
  | none =>
    rw [hg] at h
    exact subDays?_valid htoday h
  | some w =>
    rw [hg] at h
    obtain ⟨⟨r, hr, hd⟩, _⟩ := get_latest_date_spec hg
    have hw : w.valid = true := by
      rw [← hd]
      exact allValid_iff.mp hv r hr
    exact succ?_valid hw h

theorem step_processed_watermark {cfg : Config} {orc : IterOracle} {s s' : Store} {nd : Date}
    (htoday : cfg.today.valid = true) (hv : allValid s = true)
    (h : step cfg orc s = .processed nd s') :
    nd.valid = true ∧ allValid s' = true ∧ nextDateToFetch cfg s = some nd ∧
    (s' = s ∨ (hasRowD s' nd = true ∧ get_latest_date s' = some nd)) := by
  obtain ⟨hnext, hmem, hother, hcase⟩ := step_processed_store h
  have hndv : nd.valid = true := nextDate_valid htoday hv hnext
  have hv' : allValid s' = true := by
    rw [allValid_iff] at hv ⊢
    intro r hr
    rcases hmem r hr with hd | hr'
    · rw [hd]
      exact hndv
    · exact hv r hr'
  refine ⟨hndv, hv', hnext, ?_⟩
  rcases hcase with rfl | hrow
  · exact Or.inl rfl
  right
  refine ⟨hrow, ?_⟩
  apply get_latest_date_eq
  · exact hasRowD_iff.mp hrow
  · intro r hr
    rcases hmem r hr with hd | hr'
    · rw [hd]
      exact dateLe_refl nd
    · cases hg : get_latest_date s with
      | none =>
        rw [get_latest_date_none_iff] at hg
        subst hg
        cases hr'
      | some w =>
        have hub := (get_latest_date_spec hg).2 r hr'
        unfold nextDateToFetch at hnext
        rw [hg] at hnext
        exact dateLe_trans hub (dateLt_le (succ?_gt hnext))

theorem step_processed_interval {cfg : Config} {orc : IterOracle} {s s' : Store} {nd : Date}
    (hv : allValid s = true)
    (hI : IntervalStore s) (h : step cfg orc s = .processed nd s') :
    IntervalStore s' := by
  obtain ⟨hnext, hmem, hother, hcase⟩ := step_processed_store h
  rcases hcase with rfl | hrow
  · exact hI
  intro d1 d2 e hev h1 h2 hle1 hle2
  have hdate : ∀ {x : Date}, hasRowD s' x = true → x = nd ∨ hasRowD s x = true := by
    intro x hx
    obtain ⟨r, hr, hd⟩ := hasRowD_iff.mp hx
    rcases hmem r hr with hdd | hr'
    · left
      rw [← hd, hdd]
    · exact Or.inr (hasRowD_iff.mpr ⟨r, hr', hd⟩)
  by_cases hend : e = nd
  · rw [hend]
    exact hrow
  have htrans : hasRowD s e = true → hasRowD s' e = true := by
    intro hse
    rw [hother e hend]
    exact hse
  cases hg : get_latest_date s with
  | none =>
    rw [get_latest_date_none_iff] at hg
    subst hg
    have hforce : ∀ {x : Date}, hasRowD ([] : Store) x = true → False := by
      intro x hx
      obtain ⟨r, hr, _⟩ := hasRowD_iff.mp hx
      cases hr
    have hd1 : d1 = nd := by
      rcases hdate h1 with h' | h'
      · exact h'
      · exact absurd h' (fun hh => hforce hh)
    have hd2 : d2 = nd := by
      rcases hdate h2 with h' | h'
      · exact h'
      · exact absurd h' (fun hh => hforce hh)
    subst hd1
    subst hd2
    exact absurd (dateLe_antisymm hle2 hle1) hend
  | some w =>
    unfold nextDateToFetch at hnext
    rw [hg] at hnext
    have hw_mem := (get_latest_date_spec hg).1
    have hub := (get_latest_date_spec hg).2
    have hwrow : hasRowD s w = true := hasRowD_iff.mpr hw_mem
    have hwv : w.valid = true := by
      obtain ⟨r, hr, hd⟩ := hw_mem
      rw [← hd]
      exact allValid_iff.mp hv r hr
    have hwlt : dateLt w nd = true := succ?_gt hnext
    rcases hdate h2 with hd2 | hd2row
    · subst hd2
      have helt : dateLt e d2 = true := dateLe_ne_lt hle2 hend
      have helew : dateLe e w = true := lt_succ?_le hev hwv hnext helt
      rcases hdate h1 with hd1 | hd1row
      · subst hd1
        have hc : dateLt d1 d1 = true := dateLe_lt_trans hle1 helt
        rw [dateLt_irrefl] at hc
        cases hc
      · exact htrans (hI d1 w e hev hd1row hwrow hle1 helew)
    · have hd2w : dateLe d2 w = true := by
        obtain ⟨r, hr, hd⟩ := hasRowD_iff.mp hd2row
        rw [← hd]
        exact hub r hr
      rcases hdate h1 with hd1 | hd1row
      · subst hd1
        have h1' : dateLe d1 w = true := dateLe_trans hle1 (dateLe_trans hle2 hd2w)
        have hc : dateLt w w = true := dateLt_le_trans hwlt h1'
        rw [dateLt_irrefl] at hc
        cases hc
      · exact htrans (hI d1 d2 e hev hd1row hd2row hle1 hle2)

theorem run_preserves_inv (cfg : Config) (orcs : Nat → IterOracle)
    (htoday : cfg.today.valid = true) :
    ∀ (fuel : Nat) (s : Store) (i : Nat), allValid s = true → IntervalStore s →
      allValid (run cfg orcs fuel s i).1 = true ∧
      IntervalStore (run cfg orcs fuel s i).1 := by
  intro fuel
  induction fuel with
  | zero =>
    intro s i hv hI
    exact ⟨hv, hI⟩
  | succ n ih =>
    intro s i hv hI
    rw [run_succ]
    cases hstep : step cfg (orcs i) s with
    | processed nd s' =>
      have hv' := (step_processed_watermark htoday hv hstep).2.1
      have hI' := step_processed_interval hv hI hstep
      exact ih s' (i + 1) hv' hI'
    | caughtUp s' =>
      have he := step_caughtUp_eq hstep
      subst he
      exact ⟨hv, hI⟩
    | fetchFailed nd s' =>
      have he := step_fetchFailed_eq hstep
      subst he
      exact ⟨hv, hI⟩
    | overflow s' =>
      have he := step_overflow_eq hstep
      subst he
      exact ⟨hv, hI⟩

/-- C4: after any sequence of full-catch-up iterations starting from an
empty store, the set of dates holding rows has no gaps: every
representable calendar day between two days that have rows also has at
least one row. Moreover each processed iteration either leaves the store
(and hence the watermark) exactly as it was, or writes at least one row
for the computed next day and the watermark becomes exactly that day. -/
theorem C4_no_gaps (cfg : Config) (orcs : Nat → IterOracle) (fuel : Nat)
    (htoday : cfg.today.valid = true) :
    IntervalStore (run cfg orcs fuel [] 0).1 ∧
    (∀ (s s' : Store) (orc : IterOracle) (nd : Date), allValid s = true →
      step cfg orc s = .processed nd s' →
      s' = s ∨ (hasRowD s' nd = true ∧ get_latest_date s' = some nd ∧
        nextDateToFetch cfg s = some nd)) := by
  constructor
  · have hnil_v : allValid ([] : Store) = true := rfl
    have hnil_I : IntervalStore ([] : Store) := by
      intro d1 d2 e _ h1 _ _ _
      obtain ⟨r, hr, _⟩ := hasRowD_iff.mp h1
      cases hr
    exact (run_preserves_inv cfg orcs htoday fuel [] 0 hnil_v hnil_I).2
  · intro s s' orc nd hv hstep
    obtain ⟨_, _, hnext, hcase⟩ := step_processed_watermark htoday hv hstep
    rcases hcase with rfl | ⟨hr1, hr2⟩
    · exact Or.inl rfl
    · exact Or.inr ⟨hr1, hr2, hnext⟩

/-- C4 witness: a two-day catch-up over empty fetches leaves rows for both
days, and the middle day of the produced range has a row. -/
theorem C4_no_gaps_witness :
    (⟨2024, 3, 20⟩ : Date).valid = true ∧
    hasRowD (run ⟨⟨2024, 3, 20⟩, 2, 0⟩ (fun _ => ⟨.success [], true, true⟩) 3 [] 0).1
      ⟨2024, 3, 19⟩ = true := by
  refine ⟨by decide, ?_⟩
  exact (C4_no_gaps ⟨⟨2024, 3, 20⟩, 2, 0⟩ (fun _ => ⟨.success [], true, true⟩) 3
    (by decide)).1 ⟨2024, 3, 18⟩ ⟨2024, 3, 19⟩ ⟨2024, 3, 19⟩ (by decide) (by decide)
    (by decide) (by decide) (by decide)

/-- C8: from an empty store with initialBackfillDays 2, when every fetch
succeeds with at least one valid sample and the storage transactions
succeed, the full catch-up terminates with the caught-up outcome for any
fuel of at least three iterations, after processing exactly the two days
today - 2 and today - 1; the final watermark is today - 1. -/
theorem C8_two_day_catchup (cfg : Config) (orcs : Nat → IterOracle) (d0 d1 : Date)
    (htoday : cfg.today.valid = true) (hN : cfg.initialDaysBack = 2)
    (hlf : cfg.today.pred? = some d1) (hd0 : subDays? cfg.today 2 = some d0)
    (horc : ∀ i, ∃ es, (orcs i).fetch = .success es ∧ es ≠ [] ∧
      (∃ e ∈ es, e.date ≠ none ∧ e.sgv ≠ none) ∧ (orcs i).writeOk = true) :
    ∃ s : Store,
      (∀ extra : Nat, run cfg orcs (extra + 3) [] 0 = (s, .finished)) ∧
      get_latest_date s = some d1 ∧
      (∀ e, hasRowD s e = true ↔ (e = d0 ∨ e = d1)) := by
  choose es hfetch hne hvalid hwk using horc
  -- date facts
  have hpred1 : d1.pred? = some d0 := by
    have h2 : subDays? cfg.today 2 = (cfg.today.pred?).bind Date.pred? := rfl
    rw [h2, hlf] at hd0
    simpa using hd0
  have hd1v : d1.valid = true := pred?_valid htoday hlf
  have hsucc0 : d0.succ? = some d1 := pred?_succ? hd1v hpred1
  have hsucc1 : d1.succ? = some cfg.today := pred?_succ? htoday hlf
  have hlt01 : dateLt d0 d1 = true := succ?_gt hsucc0
  have hlt1t : dateLt d1 cfg.today = true := succ?_gt hsucc1
  have hne01 : d0 ≠ d1 := dateLt_ne hlt01
  have hnotdue : dateLe cfg.today d1 = false := by
    cases hle : dateLe cfg.today d1 with
    | false => rfl
    | true =>
      have hc : dateLt d1 d1 = true := dateLt_le_trans hlt1t hle
      rw [dateLt_irrefl] at hc
      cases hc
  -- iteration 0
  have hcm0 : collectMinutes cfg.tz (es 0) ≠ [] := collectMinutes_ne_nil (hvalid 0)
  have hnext0 : nextDateToFetch cfg [] = some d0 := by
    unfold nextDateToFetch
    rw [show get_latest_date ([] : Store) = none from rfl]
    dsimp only
    rw [hN]
    exact hd0
  have hstep0 : step cfg (orcs 0) [] =
      .processed d0 (upsertRows [] d0 (reduceRows cfg.tz (es 0))) :=
    step_processed_upsert hlf hnext0 (dateLt_le hlt01) (hfetch 0) (hne 0) hcm0 (hwk 0)
  set s1 : Store := upsertRows [] d0 (reduceRows cfg.tz (es 0)) with hs1
  have hrows0 : reduceRows cfg.tz (es 0) ≠ [] := reduceRows_ne_nil hcm0
  have hs1mem : ∀ r ∈ s1, r.date = d0 := by
    intro r hr
    rcases mem_upsertRows hr with ⟨hd, _⟩ | hr'
    · exact hd
    · cases hr'
  have hglds1 : get_latest_date s1 = some d0 := by
    apply get_latest_date_eq
    · exact hasRowD_iff.mp (hasRowD_upsertRows_self hrows0)
    · intro r hr
      rw [hs1mem r hr]
      exact dateLe_refl d0
  -- iteration 1
  have hcm1 : collectMinutes cfg.tz (es (0 + 1)) ≠ [] := collectMinutes_ne_nil (hvalid (0 + 1))
  have hnext1 : nextDateToFetch cfg s1 = some d1 := by
    unfold nextDateToFetch
    rw [hglds1]
    exact hsucc0
  have hstep1 : step cfg (orcs (0 + 1)) s1 =
      .processed d1 (upsertRows s1 d1 (reduceRows cfg.tz (es (0 + 1)))) :=
    step_processed_upsert hlf hnext1 (dateLe_refl d1) (hfetch (0 + 1)) (hne (0 + 1))
      hcm1 (hwk (0 + 1))
  set s2 : Store := upsertRows s1 d1 (reduceRows cfg.tz (es (0 + 1))) with hs2
  have hrows1 : reduceRows cfg.tz (es (0 + 1)) ≠ [] := reduceRows_ne_nil hcm1
  have hs2row1 : hasRowD s2 d1 = true := hasRowD_upsertRows_self hrows1
  have hglds2 : get_latest_date s2 = some d1 := by
    apply get_latest_date_eq
    · exact hasRowD_iff.mp hs2row1
    · intro r hr
      rcases mem_upsertRows hr with ⟨hd, _⟩ | hr'
      · rw [hd]
        exact dateLe_refl d1
      · rw [hs1mem r hr']
        exact dateLt_le hlt01
  -- iteration 2: caught up
  have hnext2 : nextDateToFetch cfg s2 = some cfg.today := by
    unfold nextDateToFetch
    rw [hglds2]
    exact hsucc1
  have hstep2 : ∀ j, step cfg (orcs j) s2 = .caughtUp s2 := by
    intro j
    unfold step
    rw [hlf, hnext2]
    dsimp only
    rw [if_neg (by simp [hnotdue])]
  refine ⟨s2, ?_, hglds2, ?_⟩
  · intro extra
    have e3 : extra + 3 = (extra + 2) + 1 := rfl
    rw [e3, run_succ, hstep0]
    dsimp only
    have e2 : extra + 2 = (extra + 1) + 1 := rfl
    rw [e2, run_succ, hstep1]
    dsimp only
    rw [run_succ, hstep2]
  · intro e
    constructor
    · intro he
      obtain ⟨r, hr, hd⟩ := hasRowD_iff.mp he
      rcases mem_upsertRows hr with ⟨hdd, _⟩ | hr'
      · right
        rw [← hd, hdd]
      · left
        rw [← hd, hs1mem r hr']
    · rintro (rfl | rfl)
      · rw [hasRowD_upsertRows_other hne01]
        exact hasRowD_upsertRows_self hrows0
      · exact hs2row1

/-- C8 witness: a concrete two-day catch-up with one sample per day. -/
theorem C8_two_day_catchup_witness :
    ∃ s : Store,
      (∀ extra : Nat, run ⟨⟨2024, 3, 20⟩, 2, 0⟩ (fun _ => ⟨.success [⟨some 1, some 100⟩], true, true⟩)
        (extra + 3) [] 0 = (s, .finished)) ∧
      get_latest_date s = some ⟨2024, 3, 19⟩ ∧
      (∀ e, hasRowD s e = true ↔ (e = ⟨2024, 3, 18⟩ ∨ e = ⟨2024, 3, 19⟩)) :=
  C8_two_day_catchup ⟨⟨2024, 3, 20⟩, 2, 0⟩ (fun _ => ⟨.success [⟨some 1, some 100⟩], true, true⟩)
    ⟨2024, 3, 18⟩ ⟨2024, 3, 19⟩ (by decide) rfl (by decide) (by decide)
    (fun i => ⟨[⟨some 1, some 100⟩], rfl, by decide, by decide, rfl⟩)

/-! Byte-string lemmas, for the MAX(date_str) claim C9. -/

theorem strLtB_append_eq_len :
    ∀ (xs ys : List Nat), xs.length = ys.length → ∀ as bs,
      strLtB (xs ++ as) (ys ++ bs) =
        (strLtB xs ys || (decide (xs = ys) && strLtB as bs)) := by
  intro xs
  induction xs with
  | nil =>
    intro ys h as bs
    cases ys with
    | nil => simp [strLtB]
    | cons y ys => cases h
  | cons x xs ih =>
    intro ys h as bs
    cases ys with
    | nil => cases h
    | cons y ys =>
      simp only [List.cons_append, strLtB, List.append_eq]
      rw [ih ys (by simpa using h) as bs]
      have hd : decide ((x :: xs) = (y :: ys)) = (decide (x = y) && decide (xs = ys)) := by
        by_cases hx : x = y <;> by_cases hxs : xs = ys <;> simp [hx, hxs]
      rw [hd]
      cases h1 : decide (x < y) <;> cases h2 : decide (x = y) <;>
        cases h3 : decide (xs = ys) <;> simp [h3]

theorem pad4_lt_iff {a b : Nat} (ha : a ≤ 9999) (hb : b ≤ 9999) :
    strLtB (pad4 a) (pad4 b) = true ↔ a < b := by
  simp only [pad4, strLtB, Bool.and_false, Bool.or_false, Bool.or_eq_true,
    Bool.and_eq_true, decide_eq_true_eq]
  omega

theorem pad4_inj_iff {a b : Nat} (_ha : a ≤ 9999) (_hb : b ≤ 9999) :
    pad4 a = pad4 b ↔ a = b := by
  simp only [pad4, List.cons.injEq, and_true]
  omega

theorem pad2_lt_iff {a b : Nat} (_ha : a ≤ 99) (_hb : b ≤ 99) :
    strLtB (pad2 a) (pad2 b) = true ↔ a < b := by
  simp only [pad2, strLtB, Bool.and_false, Bool.or_false, Bool.or_eq_true,
    Bool.and_eq_true, decide_eq_true_eq]
  omega

theorem pad2_inj_iff {a b : Nat} (_ha : a ≤ 99) (_hb : b ≤ 99) :
    pad2 a = pad2 b ↔ a = b := by
  simp only [pad2, List.cons.injEq, and_true]
  omega

theorem dateStr_lt_iff {a b : Date} (ha : a.valid = true) (hb : b.valid = true) :
    (strLtB (dateStr a) (dateStr b) = true) ↔ dateLt a b = true := by
  obtain ⟨y1, m1, d1⟩ := a
  obtain ⟨y2, m2, d2⟩ := b
  simp only [Date.valid, decide_eq_true_eq] at ha hb
  have hmd1 : d1 ≤ 31 := le_trans ha.2.2.2.2.2 (daysInMonth_le_31 y1 m1)
  have hmd2 : d2 ≤ 31 := le_trans hb.2.2.2.2.2 (daysInMonth_le_31 y2 m2)
  unfold dateStr
  dsimp only
  simp only [List.append_assoc]
  rw [strLtB_append_eq_len (pad4 y1) (pad4 y2) rfl,
    strLtB_append_eq_len [45] [45] rfl,
    strLtB_append_eq_len (pad2 m1) (pad2 m2) rfl,
    strLtB_append_eq_len [45] [45] rfl,
    show strLtB [45] [45] = false from rfl,
    show decide (([45] : List Nat) = [45]) = true from by decide]
  simp only [Bool.false_or, Bool.true_and, Bool.or_eq_true, Bool.and_eq_true,
    decide_eq_true_eq]
  rw [pad4_lt_iff ha.2.1 hb.2.1, pad4_inj_iff ha.2.1 hb.2.1,
    pad2_lt_iff (show m1 ≤ 99 by omega) (show m2 ≤ 99 by omega),
    pad2_inj_iff (show m1 ≤ 99 by omega) (show m2 ≤ 99 by omega),
    pad2_lt_iff (show d1 ≤ 99 by omega) (show d2 ≤ 99 by omega)]
  simp only [dateLt, decide_eq_true_eq]

theorem dateMax2_valid {a b : Date} (ha : a.valid = true) (hb : b.valid = true) :
    (dateMax2 a b).valid = true := by
  rcases dateMax2_cases a b with h | h <;> rw [h] <;> assumption

theorem strMax2_dateStr {a b : Date} (ha : a.valid = true) (hb : b.valid = true) :
    strMax2 (dateStr a) (dateStr b) = dateStr (dateMax2 a b) := by
  unfold strMax2 dateMax2
  by_cases h : dateLt a b = true
  · rw [if_pos ((dateStr_lt_iff ha hb).mpr h), if_pos h]
  · have h' : ¬ strLtB (dateStr a) (dateStr b) = true :=
      fun hh => h ((dateStr_lt_iff ha hb).mp hh)
    rw [if_neg h', if_neg h]

theorem sqlFrom_eq :
    ∀ (s : Store) (acc : Option Date), allValid s = true →
      (∀ w, acc = some w → w.valid = true) →
      List.foldl
        (fun a x => some (match a with
          | none => x
          | some y => strMax2 y x))
        (acc.map dateStr) (s.map (fun r => dateStr r.date)) =
      (latestFrom acc s).map dateStr := by
  intro s
  induction s with
  | nil =>
    intro acc _ _
    rfl
  | cons r rest ih =>
    intro acc hv hacc
    have hrv : r.date.valid = true := allValid_iff.mp hv r (List.mem_cons_self r rest)
    have hv' : allValid rest = true := by
      rw [allValid_iff] at hv ⊢
      exact fun x hx => hv x (List.mem_cons_of_mem r hx)
    rw [List.map_cons, List.foldl_cons, latestFrom_cons]
    cases acc with
    | none =>
      exact ih (some r.date) hv' (by
        intro w hw
        injection hw with hw
        rw [← hw]
        exact hrv)
    | some w =>
      have hwv := hacc w rfl
      have hred : (match Option.map dateStr (some w) with
          | none => dateStr r.date
          | some y => strMax2 y (dateStr r.date)) =
          strMax2 (dateStr w) (dateStr r.date) := rfl
      rw [hred, strMax2_dateStr hwv hrv]
      exact ih (some (dateMax2 w r.date)) hv' (by
        intro u hu
        injection hu with hu
        rw [← hu]
        exact dateMax2_valid hwv hrv)

/-- C9: get_latest_date returns the chronologically maximum date over all
stored rows, or none when the store has no rows, and it reflects the
current store contents (every stored date is bounded by it and it is
itself stored). In particular the SQL MAX over the encoded YYYY-MM-DD
byte strings coincides with the encoding of the maximum of the dates for
every store whose dates are representable, which includes every store a
run can reach from the empty store. -/
theorem C9_latest_date (s : Store) (hv : allValid s = true) :
    (get_latest_date s = none ↔ s = []) ∧
    (∀ w, get_latest_date s = some w →
      (∃ r ∈ s, r.date = w) ∧ ∀ r ∈ s, dateLe r.date w = true) ∧
    sqlMaxStr (s.map (fun r => dateStr r.date)) = (get_latest_date s).map dateStr ∧
    (∀ (cfg : Config) (orcs : Nat → IterOracle) (fuel : Nat), cfg.today.valid = true →
      allValid (run cfg orcs fuel [] 0).1 = true) := by
  refine ⟨get_latest_date_none_iff, fun w h => get_latest_date_spec h, ?_, ?_⟩
  · exact sqlFrom_eq s none hv (by intro w hw; cases hw)
  · intro cfg orcs fuel htoday
    have hnil_I : IntervalStore ([] : Store) := by
      intro d1 d2 e _ h1 _ _ _
      obtain ⟨r, hr, _⟩ := hasRowD_iff.mp h1
      cases hr
    exact (run_preserves_inv cfg orcs htoday fuel [] 0 rfl hnil_I).1

/-- C9 witness: a two-row store where the byte-string MAX picks the later
date. -/
theorem C9_latest_date_witness :
    allValid [⟨⟨2024, 3, 20⟩, 5, 100⟩, ⟨⟨2023, 12, 31⟩, 0, 0⟩] = true ∧
    sqlMaxStr (([⟨⟨2024, 3, 20⟩, 5, 100⟩, ⟨⟨2023, 12, 31⟩, 0, 0⟩] : Store).map
        (fun r => dateStr r.date)) =
      (get_latest_date [⟨⟨2024, 3, 20⟩, 5, 100⟩, ⟨⟨2023, 12, 31⟩, 0, 0⟩]).map dateStr := by
  refine ⟨by decide, ?_⟩
  exact (C9_latest_date [⟨⟨2024, 3, 20⟩, 5, 100⟩, ⟨⟨2023, 12, 31⟩, 0, 0⟩] (by decide)).2.2.1

end NSDash
